import Mathlib

/-!
A shallow embedding, in Lean 4, of the progression-suggestion core of the
LiftGraph workout tracker (`src/liftgraph/src/App.tsx` and
`src/liftgraph/src/SplitEditor.tsx`): the plate model, the weight
normalizer, the progression engine, the schedule resolver with its legacy
migration, and the split-import validator.

Conventions of the embedding:
* JavaScript numbers are modelled by `ℚ` (all arithmetic the core performs
  is exact on the rationals; `Math.floor` is `Int.floor`, `Math.round` is
  `jsRound`, round-half-up, and the floating-point guard `1e-9` added
  before a floor is kept as the literal rational `1/1000000000`).
* `x ?? y` on a nullable is `Option.getD`; a JS value of type
  `string | null` is `Option String`; an optional object field is an
  `Option`.  JS truthiness tests on such values are modelled exactly:
  `if (v2Id)` is false both for `null` and for the empty string.
* `Array.prototype.sort` with the comparator
  `(a, b) => b.effectiveReps - a.effectiveReps` is a stable descending
  sort; it is embedded as the (stable) insertion sort `sortByEffDesc`,
  which produces the same list as any stable sort for that comparator.
* Display-string fields (`message`, `nextGoal`, the `format*` helpers) of
  `computeSuggestion`'s result are omitted from the embedding: no verified
  property mentions them, and they are derived from fields that are kept.
* Mutation of JavaScript objects is modelled by explicit state passing;
  for the one property about object identity (the migrated week 2 sharing
  no day-slot storage with week 1) a small allocation model `Heap` makes
  the object references of `ensureV2State`'s week construction explicit.
-/

namespace LiftGraph

/-- `Math.round`: round half toward positive infinity. -/
def jsRound (x : ℚ) : ℤ := ⌊x + 1/2⌋

/-- `Math.round(x * 2) / 2`: round to the nearest half unit. -/
def roundHalf (x : ℚ) : ℚ := (jsRound (x * 2) : ℚ) / 2

-- ------------------------- Types (App.tsx) -------------------------

inductive DayName
  | monday | tuesday | wednesday | thursday | friday | saturday | sunday
deriving DecidableEq, Repr

inductive Equipment
  | db | barbell | machine | cable | bodyweight
deriving DecidableEq, Repr

structure RepScheme where
  workRangeMin : ℚ
  workRangeMax : ℚ
  progressMinClean : ℚ
  progressMaxClean : ℚ
  dirtyPenalty : ℚ
  maxDirtyRatioToProgress : ℚ
deriving DecidableEq, Repr

structure ExerciseSettings where
  id : String
  name : String
  equipment : Equipment
  repScheme : RepScheme
  dbIncrementPerHand : ℚ
  barbellIncrementPerSide : ℚ
  otherIncrementTotal : ℚ
  barWeight : ℚ
deriving DecidableEq, Repr

/-- Legacy schedule entry (kept for migration only). -/
structure WorkoutTemplate where
  id : String
  name : String
  day : DayName
  exerciseIds : List String
deriving DecidableEq, Repr

structure WorkoutLibraryItem where
  id : String
  name : String
  exerciseIds : List String
deriving DecidableEq, Repr

/-- `SplitWeek.days`: a `Record<DayName, string | null>` with exactly the
seven weekday keys, a field per weekday. -/
structure SplitWeek where
  monday : Option String
  tuesday : Option String
  wednesday : Option String
  thursday : Option String
  friday : Option String
  saturday : Option String
  sunday : Option String
deriving DecidableEq, Repr

def SplitWeek.get (w : SplitWeek) : DayName → Option String
  | .monday => w.monday
  | .tuesday => w.tuesday
  | .wednesday => w.wednesday
  | .thursday => w.thursday
  | .friday => w.friday
  | .saturday => w.saturday
  | .sunday => w.sunday

def SplitWeek.set (w : SplitWeek) (d : DayName) (v : Option String) : SplitWeek :=
  match d with
  | .monday => { w with monday := v }
  | .tuesday => { w with tuesday := v }
  | .wednesday => { w with wednesday := v }
  | .thursday => { w with thursday := v }
  | .friday => { w with friday := v }
  | .saturday => { w with saturday := v }
  | .sunday => { w with sunday := v }

structure Split where
  week1 : SplitWeek
  week2 : SplitWeek
deriving DecidableEq, Repr

inductive WeekKey
  | week1 | week2
deriving DecidableEq, Repr

structure AppSettings where
  activeWeek : WeekKey
  keepScreenAwake : Option Bool
deriving DecidableEq, Repr

inductive Plate
  | p45 | p35 | p25 | p10 | p5 | p2half
deriving DecidableEq, Repr

/-- The denomination (in weight units) of each plate. -/
def Plate.weight : Plate → ℚ
  | .p45 => 45
  | .p35 => 35
  | .p25 => 25
  | .p10 => 10
  | .p5 => 5
  | .p2half => 5/2

/-- `PlateCounts`: a `Record<Plate, number>`, a count per denomination. -/
structure PlateCounts where
  c45 : ℕ
  c35 : ℕ
  c25 : ℕ
  c10 : ℕ
  c5 : ℕ
  c2half : ℕ
deriving DecidableEq, Repr

def PlateCounts.get (pc : PlateCounts) : Plate → ℕ
  | .p45 => pc.c45
  | .p35 => pc.c35
  | .p25 => pc.c25
  | .p10 => pc.c10
  | .p5 => pc.c5
  | .p2half => pc.c2half

def PlateCounts.set (pc : PlateCounts) (p : Plate) (n : ℕ) : PlateCounts :=
  match p with
  | .p45 => { pc with c45 := n }
  | .p35 => { pc with c35 := n }
  | .p25 => { pc with c25 := n }
  | .p10 => { pc with c10 := n }
  | .p5 => { pc with c5 := n }
  | .p2half => { pc with c2half := n }

inductive SetKind
  | normal | drop
deriving DecidableEq, Repr

structure SetEntry where
  id : String
  exerciseId : String
  kind : Option SetKind
  parentSetId : Option String
  weight : Option ℚ
  barbellPlatesPerSide : Option PlateCounts
  cleanReps : ℚ
  dirtyReps : ℚ
  notes : Option String
  createdAt : ℚ
deriving DecidableEq, Repr

inductive SessionStatus
  | active | completed | skipped
deriving DecidableEq, Repr

structure Session where
  id : String
  workoutId : String
  dateISO : String
  sets : List SetEntry
  status : SessionStatus
  startedAt : Option ℚ
  endedAt : Option ℚ
deriving DecidableEq, Repr

structure PersistedState where
  exercises : List ExerciseSettings
  workouts : List WorkoutTemplate
  workoutLibrary : Option (List WorkoutLibraryItem)
  split : Option Split
  settings : Option AppSettings
  sessions : List Session
deriving DecidableEq, Repr

-- ------------------------- Plate model -------------------------

/-- The iteration order of the greedy decomposition. -/
def PLATES : List Plate := [.p45, .p35, .p25, .p10, .p5, .p2half]

def emptySplitWeek : SplitWeek :=
  ⟨none, none, none, none, none, none, none⟩

/-- `cloneSplitWeek`: `{ days: { ...w.days } }`, a fresh record holding a
copy of every day slot. -/
def cloneSplitWeek (w : SplitWeek) : SplitWeek :=
  ⟨w.monday, w.tuesday, w.wednesday, w.thursday, w.friday, w.saturday, w.sunday⟩

def emptyPlateCounts : PlateCounts := ⟨0, 0, 0, 0, 0, 0⟩

/-- The `PLATES.reduce((sum, p) => sum + p * (plates[p] || 0), 0)` side sum
of `platesPerSideToTotal`. -/
def plateSideSum (plates : PlateCounts) : ℚ :=
  PLATES.foldl (fun sum p => sum + p.weight * (plates.get p : ℚ)) 0

def platesPerSideToTotal (plates : PlateCounts) (barWeight : ℚ) : ℚ :=
  barWeight + plateSideSum plates * 2

def addPlateCounts (a b : PlateCounts) : PlateCounts :=
  PLATES.foldl (fun out p => out.set p (a.get p + b.get p)) emptyPlateCounts

/-- One iteration of the greedy loop of `platesForWeightPerSide`:
`count = Math.floor(remaining / p + 1e-9)`, and when positive, record it
and round the new remainder to the nearest half unit. -/
def plateStep (st : ℚ × PlateCounts) (p : Plate) : ℚ × PlateCounts :=
  let count : ℤ := ⌊st.1 / p.weight + 1/1000000000⌋
  if count > 0 then
    (roundHalf (st.1 - (count : ℚ) * p.weight), st.2.set p count.toNat)
  else
    st

def platesForWeightPerSide (w : ℚ) : PlateCounts :=
  (PLATES.foldl plateStep (roundHalf w, emptyPlateCounts)).2

-- ------------------------- Weight normalizer -------------------------

/-- `setTotalWeight` of `App.tsx`: the set's total effective weight.  The
first branch fires exactly when the equipment is barbell and the set
carries a plate record (an object is always truthy in JS). -/
def setTotalWeight (ex : ExerciseSettings) (s : SetEntry) : ℚ :=
  match ex.equipment, s.barbellPlatesPerSide with
  | .barbell, some pc => platesPerSideToTotal pc ex.barWeight
  | e, _ => if e = .db then s.weight.getD 0 * 2 else s.weight.getD 0

-- ------------------------- Progression engine -------------------------

/-- One element of the `scored` array of `computeSuggestion`. -/
structure Scored where
  s : SetEntry
  totalReps : ℚ
  dirtyRatio : ℚ
  effectiveReps : ℚ
  weightTotal : ℚ
deriving DecidableEq, Repr

/-- The body of the `.map` in `computeSuggestion`. -/
def scoreSet (ex : ExerciseSettings) (s : SetEntry) : Scored :=
  let totalReps := s.cleanReps + s.dirtyReps
  let dirtyRatio := if totalReps = 0 then 0 else s.dirtyReps / totalReps
  let effectiveReps := s.cleanReps + s.dirtyReps * ex.repScheme.dirtyPenalty
  let weightTotal := setTotalWeight ex s
  ⟨s, totalReps, dirtyRatio, effectiveReps, weightTotal⟩

/-- Insert into a descending-sorted list, before the first element that is
not strictly greater: the insertion step of a stable descending sort. -/
def insertByEffDesc (x : Scored) : List Scored → List Scored
  | [] => [x]
  | y :: ys =>
      if y.effectiveReps > x.effectiveReps then y :: insertByEffDesc x ys
      else x :: y :: ys

/-- `.sort((a, b) => b.effectiveReps - a.effectiveReps)`: the stable
descending sort by `effectiveReps` (JS `Array.prototype.sort` is stable,
and every stable sort for this comparator yields the same list). -/
def sortByEffDesc : List Scored → List Scored
  | [] => []
  | x :: xs => insertByEffDesc x (sortByEffDesc xs)

inductive Action
  | increase | hold | decrease
deriving DecidableEq, Repr

/-- The barbell-only block of `computeSuggestion`'s result. -/
structure BarbellInfo where
  bestPlates : Option PlateCounts
  deltaPlatesPerSide : Option PlateCounts
  nextPlatesPerSide : Option PlateCounts
deriving DecidableEq, Repr

/-- `computeSuggestion`'s result value (display strings omitted, see the
file comment). -/
structure Suggestion where
  best : Scored
  action : Action
  nextWeight : ℚ
  inc : ℚ
  barbell : Option BarbellInfo
deriving DecidableEq, Repr

/-- Lines 419-515 of `computeSuggestion`: everything after `best` is
picked. -/
def suggestFromBest (ex : ExerciseSettings) (best : Scored) : Suggestion :=
  let scheme := ex.repScheme
  let canProgress :=
    best.s.cleanReps ≥ scheme.progressMinClean ∧
      best.dirtyRatio ≤ scheme.maxDirtyRatioToProgress
  let action : Action :=
    if canProgress then .increase
    else if best.s.cleanReps < scheme.workRangeMin then .decrease
    else if best.dirtyRatio > scheme.maxDirtyRatioToProgress then .hold
    else .hold
  let inc : ℚ :=
    if ex.equipment = .db then ex.dbIncrementPerHand * 2
    else if ex.equipment = .barbell then ex.barbellIncrementPerSide * 2
    else ex.otherIncrementTotal
  let nextWeight : ℚ :=
    if action = .increase then best.weightTotal + inc
    else if action = .decrease then max 0 (best.weightTotal - inc)
    else best.weightTotal
  let bestPlates : Option PlateCounts :=
    if ex.equipment = .barbell then best.s.barbellPlatesPerSide else none
  let deltaPerSide : ℚ :=
    if ex.equipment = .barbell then ex.barbellIncrementPerSide else 0
  let deltaPlatesPerSide : Option PlateCounts :=
    if ex.equipment = .barbell ∧ action = .increase then
      some (platesForWeightPerSide deltaPerSide)
    else none
  let nextPlatesPerSide : Option PlateCounts :=
    match ex.equipment, bestPlates, deltaPlatesPerSide with
    | .barbell, some bp, some dp => some (addPlateCounts bp dp)
    | _, _, _ => none
  { best := best
    action := action
    nextWeight := nextWeight
    inc := inc
    barbell :=
      if ex.equipment = .barbell then
        some ⟨bestPlates, deltaPlatesPerSide, nextPlatesPerSide⟩
      else none }

/-- `computeSuggestion ex sets`: filter the history down to `ex`'s sets,
return `null` when empty, otherwise stable-sort the scored sets descending
by `effectiveReps` and build the suggestion from the first. -/
def computeSuggestion (ex : ExerciseSettings) (sets : List SetEntry) :
    Option Suggestion :=
  let relevant := sets.filter (fun s => s.exerciseId == ex.id)
  if relevant.isEmpty then none
  else
    (sortByEffDesc (relevant.map (scoreSet ex))).head?.map (suggestFromBest ex)

-- ------------------------- Schedule resolver -------------------------

structure ResolvedWorkout where
  id : String
  name : String
  exerciseIds : List String
deriving DecidableEq, Repr

def Split.getWeek (sp : Split) : WeekKey → SplitWeek
  | .week1 => sp.week1
  | .week2 => sp.week2

/-- `st.settings?.activeWeek ?? "week1"`. -/
def activeWeekOf (st : PersistedState) : WeekKey :=
  (st.settings.map AppSettings.activeWeek).getD .week1

/-- `st.split?.[activeWeek]?.days?.[day] ?? null`. -/
def v2IdOf (st : PersistedState) (day : DayName) : Option String :=
  (st.split.map (fun sp => (sp.getWeek (activeWeekOf st)).get day)).getD none

/-- The legacy-fallback tail of `resolveWorkoutForDay` (lines 537-544). -/
def legacyResolve (st : PersistedState) (day : DayName)
    (activeWeek : WeekKey) :
    Option ResolvedWorkout × Option String × WeekKey :=
  match st.workouts.find? (fun w => w.day == day) with
  | none => (none, none, activeWeek)
  | some legacy =>
      (some ⟨legacy.id, legacy.name, legacy.exerciseIds⟩, some legacy.id,
        activeWeek)

/-- `resolveWorkoutForDay`.  `if (v2Id)` is a JS truthiness test: a `null`
slot and an empty-string slot both take the legacy-fallback branch. -/
def resolveWorkoutForDay (st : PersistedState) (day : DayName) :
    Option ResolvedWorkout × Option String × WeekKey :=
  let activeWeek := activeWeekOf st
  match v2IdOf st day with
  | some v2Id =>
      if v2Id = "" then legacyResolve st day activeWeek
      else
        match (st.workoutLibrary.getD []).find? (fun x => x.id == v2Id) with
        | some w => (some ⟨w.id, w.name, w.exerciseIds⟩, some w.id, activeWeek)
        | none => (none, none, activeWeek)
  | none => legacyResolve st day activeWeek

-- ------------------------- Legacy migration -------------------------

/-- The body of the `for (const w of raw.workouts)` loop of
`ensureV2State`: assign a weekday's slot only when still `null`. -/
def fillWeekStep (wk : SplitWeek) (w : WorkoutTemplate) : SplitWeek :=
  if wk.get w.day = none then wk.set w.day (some w.id) else wk

/-- `ensureV2State` (value level).  The truthiness guard
`raw.workoutLibrary && raw.split && raw.settings` is `isSome` of each
(arrays and objects are truthy in JS, even when empty). -/
def ensureV2State (raw : PersistedState) : PersistedState :=
  if raw.workoutLibrary.isSome ∧ raw.split.isSome ∧ raw.settings.isSome then
    raw
  else
    let workoutLibrary : List WorkoutLibraryItem :=
      raw.workouts.map (fun w => ⟨w.id, w.name, w.exerciseIds⟩)
    let week1 := raw.workouts.foldl fillWeekStep emptySplitWeek
    let week2 := cloneSplitWeek week1
    { raw with
      workoutLibrary := some workoutLibrary
      split := some ⟨week1, week2⟩
      settings := some ⟨.week1, none⟩ }

-- An allocation model for the week construction of `ensureV2State`: JS
-- `SplitWeek` objects live in a heap of cells, a `Split` holds two cell
-- addresses, and `emptySplitWeek()` / `cloneSplitWeek(...)` allocate.

structure Heap where
  cells : List SplitWeek
deriving DecidableEq, Repr

def Heap.alloc (h : Heap) (w : SplitWeek) : Heap × ℕ :=
  (⟨h.cells ++ [w]⟩, h.cells.length)

def Heap.read (h : Heap) (a : ℕ) : Option SplitWeek :=
  h.cells[a]?

def Heap.write (h : Heap) (a : ℕ) (w : SplitWeek) : Heap :=
  ⟨h.cells.set a w⟩

/-- The in-place mutation `if (week1.days[w.day] == null)
week1.days[w.day] = w.id` applied through the heap. -/
def fillWeekStepH (a : ℕ) (h : Heap) (w : WorkoutTemplate) : Heap :=
  h.write a (fillWeekStep ((h.read a).getD emptySplitWeek) w)

/-- Lines 330-334 of `ensureV2State` at the level of object allocation:
`const week1 = emptySplitWeek()`, the filling loop mutating that object,
then `const week2 = cloneSplitWeek(week1)`.  Returns the final heap and
the addresses of week 1 and week 2. -/
def buildWeeksH (h : Heap) (workouts : List WorkoutTemplate) :
    Heap × ℕ × ℕ :=
  let al1 := h.alloc emptySplitWeek
  let h2 := workouts.foldl (fillWeekStepH al1.2) al1.1
  let al2 := h2.alloc (cloneSplitWeek ((h2.read al1.2).getD emptySplitWeek))
  (al2.1, al1.2, al2.2)

-- ------------------------- Split import (SplitEditor.tsx) -------------------------

/-- JSON values, the possible results of `JSON.parse` over the pasted
pasted text.  An object's fields are kept in order; `JSON.parse` never
produces duplicate keys. -/
inductive JValue
  | jnull
  | jbool (b : Bool)
  | jnum (q : ℚ)
  | jstr (s : String)
  | jarr (elems : List JValue)
  | jobj (fields : List (String × JValue))

/-- JS property access `obj[k]`: the field's value, or `undefined`. -/
def jGet (fields : List (String × JValue)) (k : String) : Option JValue :=
  (fields.find? (fun f => f.1 == k)).map Prod.snd

namespace SE

/-- A day of a week of the v2 split document (`SplitEditor.tsx`). -/
structure SplitDay where
  name : DayName
  workoutId : Option String
deriving DecidableEq, Repr

structure Week where
  id : String
  name : String
  days : List SplitDay
deriving DecidableEq, Repr

/-- `ALL_DAYS` of `SplitEditor.tsx`. -/
def ALL_DAYS : List DayName :=
  [.monday, .tuesday, .wednesday, .thursday, .friday, .saturday, .sunday]

def dayNameStr : DayName → String
  | .monday => "Monday"
  | .tuesday => "Tuesday"
  | .wednesday => "Wednesday"
  | .thursday => "Thursday"
  | .friday => "Friday"
  | .saturday => "Saturday"
  | .sunday => "Sunday"

/-- `ALL_DAYS.includes(x)` for an arbitrary JSON value `x`: `some d` when
`x` is one of the seven weekday strings. -/
def parseDay : Option JValue → Option DayName
  | some (.jstr s) => ALL_DAYS.find? (fun d => dayNameStr d == s)
  | _ => none

/-- The inner `for (const day of days)` loop of `validateImport`,
threading `seenDayNames` and building `normalizedDays`. -/
def validateDays (workoutIds : List String) (i : ℕ) :
    List JValue → List DayName → Except String (List SplitDay)
  | [], _ => .ok []
  | day :: rest, seen =>
    match day with
    | .jobj f =>
      let dayKeys := f.map Prod.fst
      if ¬(dayKeys.length = 2 ∧ "name" ∈ dayKeys ∧ "workoutId" ∈ dayKeys) then
        .error ("Week " ++ toString (i+1) ++
          " day entries must include only name and workoutId.")
      else
        match parseDay (jGet f "name") with
        | none =>
            .error ("Week " ++ toString (i+1) ++ " contains an invalid day name.")
        | some dn =>
          if dn ∈ seen then
            .error ("Week " ++ toString (i+1) ++ " contains duplicate day '" ++
              dayNameStr dn ++ "'.")
          else
            match jGet f "workoutId" with
            | some .jnull =>
                (validateDays workoutIds i rest (dn :: seen)).map
                  (fun ds => ⟨dn, none⟩ :: ds)
            | some (.jstr wid) =>
                if wid ∈ workoutIds then
                  (validateDays workoutIds i rest (dn :: seen)).map
                    (fun ds => ⟨dn, some wid⟩ :: ds)
                else
                  .error ("Week " ++ toString (i+1) ++ " day '" ++
                    dayNameStr dn ++ "' references missing workout '" ++ wid ++ "'.")
            | _ =>
                .error ("Week " ++ toString (i+1) ++ " day '" ++ dayNameStr dn ++
                  "' has an invalid workoutId.")
    | _ => .error ("Week " ++ toString (i+1) ++ " contains an invalid day.")

/-- `ALL_DAYS.map((d) => normalizedDays.find(...) || { name: d,
workoutId: null })`. -/
def orderDays (nds : List SplitDay) : List SplitDay :=
  ALL_DAYS.map (fun d => (nds.find? (fun day => day.name == d)).getD ⟨d, none⟩)

/-- The outer `for` loop of `validateImport`, threading the week index and
`seenWeekIds` and building `normalizedWeeks`. -/
def validateWeeks (workoutIds : List String) :
    List JValue → ℕ → List String → Except String (List Week)
  | [], _, _ => .ok []
  | week :: rest, i, seenIds =>
    match week with
    | .jobj f =>
      let weekKeys := f.map Prod.fst
      if ¬(weekKeys.length = 3 ∧ "id" ∈ weekKeys ∧ "name" ∈ weekKeys ∧
            "days" ∈ weekKeys) then
        .error ("Week " ++ toString (i+1) ++ " must include only id, name, and days.")
      else
        match jGet f "id" with
        | some (.jstr idStr) =>
          if idStr.trim = "" then
            .error ("Week " ++ toString (i+1) ++ " has an invalid id.")
          else if idStr ∈ seenIds then
            .error ("Duplicate week id '" ++ idStr ++ "' found.")
          else
            match jGet f "name" with
            | some (.jstr nameStr) =>
              if nameStr.trim = "" then
                .error ("Week " ++ toString (i+1) ++ " has an invalid name.")
              else
                match jGet f "days" with
                | some (.jarr days) =>
                  if days.length ≠ 7 then
                    .error ("Week " ++ toString (i+1) ++ " must have exactly 7 days.")
                  else
                    match validateDays workoutIds i days [] with
                    | .error e => .error e
                    | .ok nds =>
                        (validateWeeks workoutIds rest (i+1) (idStr :: seenIds)).map
                          (fun ws => ⟨idStr, nameStr.trim, orderDays nds⟩ :: ws)
                | _ =>
                    .error ("Week " ++ toString (i+1) ++ " must have exactly 7 days.")
            | _ => .error ("Week " ++ toString (i+1) ++ " has an invalid name.")
        | _ => .error ("Week " ++ toString (i+1) ++ " has an invalid id.")
    | _ => .error ("Week " ++ toString (i+1) ++ " must be an object.")

/-- `validateImport` of `SplitEditor.tsx` from the parsed JSON on: either
the first-encountered problem's message, or the normalized weeks that
`handleImport` hands to `onRequestImportSplit` (the import is applied only
on success, so no state changes on a rejection). -/
def validateImport (library : List WorkoutLibraryItem) (parsed : JValue) :
    Except String (List Week) :=
  match parsed with
  | .jobj f =>
    if f.map Prod.fst = ["weeks"] then
      match jGet f "weeks" with
      | some (.jarr ws) =>
          if ws.isEmpty then .error "'weeks' must be a non-empty array."
          else validateWeeks (library.map (fun w => w.id)) ws 0 []
      | _ => .error "'weeks' must be a non-empty array."
    else .error "JSON must contain only a top-level 'weeks' array."
  | _ => .error "Top-level JSON must be an object."

end SE

-- ------------------------- Lemmas: the stable sort -------------------------

/-- `x` is a maximizer of `effectiveReps` in `l` and the first maximizer in
`l`'s original order: everything before it scores strictly less, everything
after it scores no more. -/
def isFirstMax (l : List Scored) (x : Scored) : Prop :=
  ∃ l₁ l₂, l = l₁ ++ x :: l₂ ∧
    (∀ y ∈ l₁, y.effectiveReps < x.effectiveReps) ∧
    (∀ y ∈ l₂, y.effectiveReps ≤ x.effectiveReps)

theorem isFirstMax_mem {l : List Scored} {x : Scored} (h : isFirstMax l x) :
    x ∈ l := by
  obtain ⟨l₁, l₂, rfl, -, -⟩ := h
  simp

theorem isFirstMax_le {l : List Scored} {x : Scored} (h : isFirstMax l x) :
    ∀ y ∈ l, y.effectiveReps ≤ x.effectiveReps := by
  obtain ⟨l₁, l₂, rfl, h₁, h₂⟩ := h
  intro y hy
  rcases List.mem_append.1 hy with hy | hy
  · exact (h₁ y hy).le
  · rcases List.mem_cons.1 hy with rfl | hy
    · exact le_refl _
    · exact h₂ y hy

theorem insertByEffDesc_ne_nil (x : Scored) (l : List Scored) :
    insertByEffDesc x l ≠ [] := by
  cases l with
  | nil => simp [insertByEffDesc]
  | cons y ys =>
      simp only [insertByEffDesc]
      split <;> simp

theorem sortByEffDesc_eq_nil_iff (l : List Scored) :
    sortByEffDesc l = [] ↔ l = [] := by
  cases l with
  | nil => simp [sortByEffDesc]
  | cons x xs =>
      simp only [sortByEffDesc]
      exact ⟨fun h => absurd h (insertByEffDesc_ne_nil _ _), fun h => by simp at h⟩

theorem head_sortByEffDesc_isFirstMax :
    ∀ (l : List Scored) (x : Scored),
      (sortByEffDesc l).head? = some x → isFirstMax l x := by
  intro l
  induction l with
  | nil => intro x h; simp [sortByEffDesc] at h
  | cons a as ih =>
      intro x h
      simp only [sortByEffDesc] at h
      cases hs : sortByEffDesc as with
      | nil =>
          have has : as = [] := (sortByEffDesc_eq_nil_iff as).1 hs
          rw [hs] at h
          simp only [insertByEffDesc, List.head?] at h
          cases h
          exact ⟨[], as, rfl, by simp, by simp [has]⟩
      | cons m rest =>
          have him : isFirstMax as m := ih m (by rw [hs]; rfl)
          rw [hs] at h
          simp only [insertByEffDesc] at h
          by_cases hgt : m.effectiveReps > a.effectiveReps
          · rw [if_pos hgt] at h
            simp only [List.head?] at h
            cases h
            obtain ⟨l₁, l₂, heq, h₁, h₂⟩ := him
            exact ⟨a :: l₁, l₂, by rw [heq, List.cons_append], by
              intro y hy
              rcases List.mem_cons.1 hy with rfl | hy
              · exact hgt
              · exact h₁ y hy, h₂⟩
          · rw [if_neg hgt] at h
            simp only [List.head?] at h
            cases h
            refine ⟨[], as, rfl, by simp, ?_⟩
            intro y hy
            have hym := isFirstMax_le him y hy
            have hma : m.effectiveReps ≤ a.effectiveReps := le_of_not_lt hgt
            exact le_trans hym hma

-- ------------------------- Lemmas: computeSuggestion -------------------------

theorem computeSuggestion_eq_some {ex : ExerciseSettings} {sets : List SetEntry}
    {sug : Suggestion} (h : computeSuggestion ex sets = some sug) :
    ∃ best,
      (sortByEffDesc
        ((sets.filter (fun s => s.exerciseId == ex.id)).map (scoreSet ex))).head? =
          some best ∧
      sug = suggestFromBest ex best := by
  unfold computeSuggestion at h
  by_cases he : (sets.filter (fun s => s.exerciseId == ex.id)).isEmpty
  · rw [if_pos he] at h; cases h
  · rw [if_neg he] at h
    obtain ⟨best, hb, hmap⟩ := Option.map_eq_some'.1 h
    exact ⟨best, hb, hmap.symm⟩

/-- The representative set of a returned suggestion is the first
`effectiveReps`-maximizer of the scored history. -/
theorem computeSuggestion_best_isFirstMax {ex : ExerciseSettings}
    {sets : List SetEntry} {sug : Suggestion}
    (h : computeSuggestion ex sets = some sug) :
    isFirstMax ((sets.filter (fun s => s.exerciseId == ex.id)).map (scoreSet ex))
      sug.best := by
  obtain ⟨best, hb, rfl⟩ := computeSuggestion_eq_some h
  exact head_sortByEffDesc_isFirstMax _ _ hb

theorem suggestFromBest_best (ex : ExerciseSettings) (best : Scored) :
    (suggestFromBest ex best).best = best := rfl

theorem scoreSet_s (ex : ExerciseSettings) (s : SetEntry) :
    (scoreSet ex s).s = s := rfl

theorem scoreSet_effectiveReps (ex : ExerciseSettings) (s : SetEntry) :
    (scoreSet ex s).effectiveReps =
      s.cleanReps + s.dirtyReps * ex.repScheme.dirtyPenalty := rfl

theorem scoreSet_dirtyRatio (ex : ExerciseSettings) (s : SetEntry) :
    (scoreSet ex s).dirtyRatio =
      if s.cleanReps + s.dirtyReps = 0 then 0
      else s.dirtyReps / (s.cleanReps + s.dirtyReps) := rfl

theorem scoreSet_weightTotal (ex : ExerciseSettings) (s : SetEntry) :
    (scoreSet ex s).weightTotal = setTotalWeight ex s := rfl

-- ------------------------- C1 -------------------------

/-- C1.  Representative-set selection: whenever the exercise has at least
one set in the history, `computeSuggestion` returns a suggestion whose
`best` is the first `effectiveReps`-maximizer, in original order, of the
scored relevant sets, where each set's `effectiveReps` is
`cleanReps + dirtyReps * dirtyPenalty`. -/
theorem representative_set_selection (ex : ExerciseSettings)
    (sets : List SetEntry)
    (hne : sets.filter (fun s => s.exerciseId == ex.id) ≠ []) :
    ∃ sug, computeSuggestion ex sets = some sug ∧
      isFirstMax ((sets.filter (fun s => s.exerciseId == ex.id)).map (scoreSet ex))
        sug.best ∧
      ∀ c ∈ (sets.filter (fun s => s.exerciseId == ex.id)).map (scoreSet ex),
        c.effectiveReps = c.s.cleanReps + c.s.dirtyReps * ex.repScheme.dirtyPenalty := by
  have hmap :
      (sets.filter (fun s => s.exerciseId == ex.id)).map (scoreSet ex) ≠ [] := by
    simpa using hne
  have hsort :
      sortByEffDesc ((sets.filter (fun s => s.exerciseId == ex.id)).map (scoreSet ex)) ≠
        [] := by
    intro h
    exact hmap ((sortByEffDesc_eq_nil_iff _).1 h)
  obtain ⟨best, rest, hbr⟩ :=
    List.exists_cons_of_ne_nil hsort
  have hsome : computeSuggestion ex sets = some (suggestFromBest ex best) := by
    unfold computeSuggestion
    rw [if_neg (by simpa [List.isEmpty_iff] using hne), hbr]
    rfl
  refine ⟨suggestFromBest ex best, hsome, ?_, ?_⟩
  · exact computeSuggestion_best_isFirstMax hsome
  · intro c hc
    obtain ⟨s, -, rfl⟩ := List.mem_map.1 hc
    rfl

/-- Witness for C1 at a concrete two-set history: the second set ties the
first on `effectiveReps`, and the first is selected. -/
def exW : ExerciseSettings :=
  ⟨"c1", "Cable Row", .cable, ⟨5, 10, 10, 12, 1/2, 1/5⟩, 5, 10, 5, 45⟩

def setW1 : SetEntry := ⟨"s1", "c1", none, none, some 50, none, 8, 0, none, 1⟩

def setW2 : SetEntry := ⟨"s2", "c1", none, none, some 60, none, 8, 0, none, 2⟩

def setW3 : SetEntry := ⟨"s3", "zz", none, none, some 70, none, 9, 0, none, 3⟩

theorem representative_set_selection_witness :
    [setW1, setW2, setW3].filter (fun s => s.exerciseId == exW.id) ≠ [] ∧
      ∃ sug, computeSuggestion exW [setW1, setW2, setW3] = some sug ∧
        isFirstMax
          (([setW1, setW2, setW3].filter (fun s => s.exerciseId == exW.id)).map
            (scoreSet exW)) sug.best ∧
        ∀ c ∈ ([setW1, setW2, setW3].filter (fun s => s.exerciseId == exW.id)).map
              (scoreSet exW),
          c.effectiveReps =
            c.s.cleanReps + c.s.dirtyReps * exW.repScheme.dirtyPenalty :=
  ⟨by decide, representative_set_selection exW [setW1, setW2, setW3] (by decide)⟩

-- ------------------------- C2 -------------------------

theorem computeSuggestion_best_mem {ex : ExerciseSettings} {sets : List SetEntry}
    {sug : Suggestion} (h : computeSuggestion ex sets = some sug) :
    sug.best ∈ (sets.filter (fun s => s.exerciseId == ex.id)).map (scoreSet ex) :=
  isFirstMax_mem (computeSuggestion_best_isFirstMax h)

theorem suggestFromBest_action (ex : ExerciseSettings) (best : Scored) :
    (suggestFromBest ex best).action =
      if best.s.cleanReps ≥ ex.repScheme.progressMinClean ∧
          best.dirtyRatio ≤ ex.repScheme.maxDirtyRatioToProgress then .increase
      else if best.s.cleanReps < ex.repScheme.workRangeMin then .decrease
      else .hold := by
  unfold suggestFromBest
  by_cases h1 : best.s.cleanReps ≥ ex.repScheme.progressMinClean ∧
      best.dirtyRatio ≤ ex.repScheme.maxDirtyRatioToProgress
  · simp [h1]
  · by_cases h2 : best.s.cleanReps < ex.repScheme.workRangeMin
    · simp [h1, h2]
    · by_cases h3 : best.dirtyRatio > ex.repScheme.maxDirtyRatioToProgress <;>
        simp [h1, h2, h3]

/-- C2.  Decision policy: every returned suggestion's action follows the
priority order increase / decrease / hold computed on the representative
set, with `dirtyRatio` being `dirtyReps / totalReps` (0 when `totalReps`
is 0); both hold branches (too-dirty or not) yield `hold`. -/
theorem progression_decision_policy (ex : ExerciseSettings)
    (sets : List SetEntry) (sug : Suggestion)
    (h : computeSuggestion ex sets = some sug) :
    sug.best.dirtyRatio =
      (if sug.best.s.cleanReps + sug.best.s.dirtyReps = 0 then 0
       else sug.best.s.dirtyReps / (sug.best.s.cleanReps + sug.best.s.dirtyReps)) ∧
    sug.action =
      (if sug.best.s.cleanReps ≥ ex.repScheme.progressMinClean ∧
          sug.best.dirtyRatio ≤ ex.repScheme.maxDirtyRatioToProgress then .increase
       else if sug.best.s.cleanReps < ex.repScheme.workRangeMin then .decrease
       else .hold) := by
  constructor
  · obtain ⟨s₀, -, hs⟩ := List.mem_map.1 (computeSuggestion_best_mem h)
    rw [← hs]
    rfl
  · obtain ⟨best, hb, rfl⟩ := computeSuggestion_eq_some h
    rw [suggestFromBest_best]
    exact suggestFromBest_action ex best

theorem progression_decision_policy_witness :
    computeSuggestion exW [setW1] =
        some (suggestFromBest exW (scoreSet exW setW1)) ∧
      ((suggestFromBest exW (scoreSet exW setW1)).best.dirtyRatio =
        (if (suggestFromBest exW (scoreSet exW setW1)).best.s.cleanReps +
            (suggestFromBest exW (scoreSet exW setW1)).best.s.dirtyReps = 0 then 0
         else (suggestFromBest exW (scoreSet exW setW1)).best.s.dirtyReps /
           ((suggestFromBest exW (scoreSet exW setW1)).best.s.cleanReps +
             (suggestFromBest exW (scoreSet exW setW1)).best.s.dirtyReps)) ∧
      (suggestFromBest exW (scoreSet exW setW1)).action =
        (if (suggestFromBest exW (scoreSet exW setW1)).best.s.cleanReps ≥
              exW.repScheme.progressMinClean ∧
            (suggestFromBest exW (scoreSet exW setW1)).best.dirtyRatio ≤
              exW.repScheme.maxDirtyRatioToProgress then .increase
         else if (suggestFromBest exW (scoreSet exW setW1)).best.s.cleanReps <
              exW.repScheme.workRangeMin then .decrease
         else .hold)) :=
  ⟨rfl,
    progression_decision_policy exW [setW1]
      (suggestFromBest exW (scoreSet exW setW1)) rfl⟩

-- ------------------------- C3 -------------------------

theorem suggestFromBest_inc (ex : ExerciseSettings) (best : Scored) :
    (suggestFromBest ex best).inc =
      if ex.equipment = .db then ex.dbIncrementPerHand * 2
      else if ex.equipment = .barbell then ex.barbellIncrementPerSide * 2
      else ex.otherIncrementTotal := rfl

theorem suggestFromBest_nextWeight (ex : ExerciseSettings) (best : Scored) :
    (suggestFromBest ex best).nextWeight =
      if (suggestFromBest ex best).action = .increase then
        best.weightTotal + (suggestFromBest ex best).inc
      else if (suggestFromBest ex best).action = .decrease then
        max 0 (best.weightTotal - (suggestFromBest ex best).inc)
      else best.weightTotal := rfl

theorem suggestFromBest_barbell_delta (ex : ExerciseSettings) (best : Scored)
    (he : ex.equipment = .barbell)
    (ha : (suggestFromBest ex best).action = .increase) :
    ∃ b, (suggestFromBest ex best).barbell = some b ∧
      b.deltaPlatesPerSide =
        some (platesForWeightPerSide ex.barbellIncrementPerSide) := by
  by_cases hc : best.s.cleanReps ≥ ex.repScheme.progressMinClean ∧
      best.dirtyRatio ≤ ex.repScheme.maxDirtyRatioToProgress
  · unfold suggestFromBest
    simp [he, hc]
  · rw [suggestFromBest_action, if_neg hc] at ha
    by_cases h2 : best.s.cleanReps < ex.repScheme.workRangeMin <;>
      simp [h2] at ha

theorem platesForWeightPerSide_ten :
    platesForWeightPerSide 10 = ⟨0, 0, 0, 1, 0, 0⟩ := by
  norm_num [platesForWeightPerSide, PLATES, plateStep, roundHalf, jsRound,
    Plate.weight, emptyPlateCounts, PlateCounts.set, List.foldl]

/-- C3.  Next-weight computation: the raw increment is equipment-specific
(dumbbell per-hand × 2, barbell per-side × 2, flat otherwise); the next
weight adds it on increase, subtracts it floored at zero on decrease, and
is unchanged on hold; on a barbell increase the per-side plate delta is
the greedy decomposition of `barbellIncrementPerSide`, so 10 per side
yields raw increment 20 and delta one 10-plate. -/
theorem next_weight_computation (ex : ExerciseSettings) (sets : List SetEntry)
    (sug : Suggestion) (h : computeSuggestion ex sets = some sug) :
    sug.inc =
      (if ex.equipment = .db then ex.dbIncrementPerHand * 2
       else if ex.equipment = .barbell then ex.barbellIncrementPerSide * 2
       else ex.otherIncrementTotal) ∧
    sug.nextWeight =
      (if sug.action = .increase then sug.best.weightTotal + sug.inc
       else if sug.action = .decrease then max 0 (sug.best.weightTotal - sug.inc)
       else sug.best.weightTotal) ∧
    (ex.equipment = .barbell → sug.action = .increase →
      (∃ b, sug.barbell = some b ∧
        b.deltaPlatesPerSide =
          some (platesForWeightPerSide ex.barbellIncrementPerSide)) ∧
      (ex.barbellIncrementPerSide = 10 →
        sug.inc = 20 ∧
          ∃ b, sug.barbell = some b ∧
            b.deltaPlatesPerSide = some ⟨0, 0, 0, 1, 0, 0⟩)) := by
  obtain ⟨best, hb, rfl⟩ := computeSuggestion_eq_some h
  refine ⟨suggestFromBest_inc ex best, ?_, ?_⟩
  · rw [suggestFromBest_best]
    exact suggestFromBest_nextWeight ex best
  · intro he ha
    refine ⟨suggestFromBest_barbell_delta ex best he ha, ?_⟩
    intro h10
    constructor
    · rw [suggestFromBest_inc, h10]
      simp [he]
      norm_num
    · have hd := suggestFromBest_barbell_delta ex best he ha
      rw [h10, platesForWeightPerSide_ten] at hd
      exact hd

def exBarbW : ExerciseSettings :=
  ⟨"b1", "Squat", .barbell, ⟨5, 10, 10, 12, 1/2, 1/5⟩, 5, 10, 5, 45⟩

def setBarbW : SetEntry :=
  ⟨"s4", "b1", none, none, none, some ⟨0, 0, 0, 1, 0, 0⟩, 10, 0, none, 1⟩

theorem next_weight_computation_witness :
    computeSuggestion exBarbW [setBarbW] =
        some (suggestFromBest exBarbW (scoreSet exBarbW setBarbW)) ∧
      (suggestFromBest exBarbW (scoreSet exBarbW setBarbW)).inc =
        (if exBarbW.equipment = .db then exBarbW.dbIncrementPerHand * 2
         else if exBarbW.equipment = .barbell then
           exBarbW.barbellIncrementPerSide * 2
         else exBarbW.otherIncrementTotal) :=
  ⟨rfl,
    (next_weight_computation exBarbW [setBarbW]
      (suggestFromBest exBarbW (scoreSet exBarbW setBarbW)) rfl).1⟩

-- ------------------------- C10 -------------------------

/-- C10.  The suggestion depends only on the exercise's own sets: the
result over any history equals the result over the sublist with matching
`exerciseId`, and it is `none` exactly when that sublist is empty. -/
theorem suggestion_only_from_own_sets (ex : ExerciseSettings)
    (sets : List SetEntry) :
    computeSuggestion ex sets =
        computeSuggestion ex (sets.filter (fun s => s.exerciseId == ex.id)) ∧
      (computeSuggestion ex sets = none ↔
        sets.filter (fun s => s.exerciseId == ex.id) = []) := by
  constructor
  · unfold computeSuggestion
    rw [List.filter_filter]
    simp only [Bool.and_self]
  · by_cases he : sets.filter (fun s => s.exerciseId == ex.id) = []
    · simp [computeSuggestion, he]
    · have hsort :
          sortByEffDesc
            ((sets.filter (fun s => s.exerciseId == ex.id)).map (scoreSet ex)) ≠
              [] := by
        intro hcon
        exact he (by simpa using (sortByEffDesc_eq_nil_iff _).1 hcon)
      obtain ⟨b, r, hbr⟩ := List.exists_cons_of_ne_nil hsort
      simp [computeSuggestion, List.isEmpty_iff, he, hbr]

-- ------------------------- C4 -------------------------

def setNoPlates : SetEntry := ⟨"s5", "b1", none, none, none, none, 5, 0, none, 1⟩

/-- C4 counterexample: a barbell exercise with bar weight 45 and a set
carrying no per-side plate counts.  `setTotalWeight` falls through to the
scalar-weight branch and returns 0, not the configured bar weight. -/
theorem barbell_no_plates_cex :
    exBarbW.equipment = .barbell ∧ setNoPlates.barbellPlatesPerSide = none ∧
      setTotalWeight exBarbW setNoPlates ≠ exBarbW.barWeight := by
  refine ⟨rfl, rfl, ?_⟩
  norm_num [setTotalWeight, exBarbW, setNoPlates]

/-- C4 amended.  For a barbell exercise and a set without plate counts,
`setTotalWeight` returns the set's scalar `weight` (0 when absent) — the
bar weight is not consulted. -/
theorem barbell_no_plates_uses_scalar (ex : ExerciseSettings) (s : SetEntry)
    (he : ex.equipment = .barbell) (hp : s.barbellPlatesPerSide = none) :
    setTotalWeight ex s = s.weight.getD 0 := by
  simp [setTotalWeight, he, hp]

theorem barbell_no_plates_uses_scalar_witness :
    exBarbW.equipment = .barbell ∧ setNoPlates.barbellPlatesPerSide = none ∧
      setTotalWeight exBarbW setNoPlates = setNoPlates.weight.getD 0 :=
  ⟨rfl, rfl, barbell_no_plates_uses_scalar exBarbW setNoPlates rfl rfl⟩

-- ------------------------- C6 -------------------------

def tmplMonday : WorkoutTemplate := ⟨"push", "Push", .monday, ["e1"]⟩

/-- A fully migrated state: all three v2 structures present, every day a
rest day, and the legacy template list still holding a Monday workout (the
migration keeps `workouts`, and fresh states seed it). -/
def stRestFallback : PersistedState :=
  ⟨[], [tmplMonday], some [⟨"push", "Push", ["e1"]⟩],
    some ⟨emptySplitWeek, emptySplitWeek⟩, some ⟨.week1, none⟩, []⟩

/-- C6 counterexample: a state with all v2 structures and a rest Monday
slot does NOT yield "no workout" — `resolveWorkoutForDay` still falls back
to the legacy template list and returns the legacy Monday template. -/
theorem resolve_rest_day_cex :
    stRestFallback.workoutLibrary.isSome ∧ stRestFallback.split.isSome ∧
      stRestFallback.settings.isSome ∧
      v2IdOf stRestFallback .monday = none ∧
      (resolveWorkoutForDay stRestFallback .monday).1 ≠ none := by
  decide

/-- C6 amended.  The legacy per-weekday fallback is consulted whenever the
active week's day slot is empty/rest (or holds the falsy empty string),
regardless of whether v2 structures exist. -/
theorem resolve_legacy_fallback (st : PersistedState) (day : DayName)
    (h : v2IdOf st day = none ∨ v2IdOf st day = some "") :
    resolveWorkoutForDay st day = legacyResolve st day (activeWeekOf st) := by
  rcases h with h | h <;> simp [resolveWorkoutForDay, h]

theorem resolve_legacy_fallback_witness :
    (v2IdOf stRestFallback .monday = none ∨
        v2IdOf stRestFallback .monday = some "") ∧
      resolveWorkoutForDay stRestFallback .monday =
        legacyResolve stRestFallback .monday (activeWeekOf stRestFallback) :=
  ⟨Or.inl rfl, resolve_legacy_fallback stRestFallback .monday (Or.inl rfl)⟩

-- ------------------------- C7 -------------------------

/-- A state whose active week's Monday slot holds the empty string — a
workout id absent from the (empty) library, yet falsy in JS. -/
def stEmptyIdState : PersistedState :=
  ⟨[], [tmplMonday], some [],
    some ⟨emptySplitWeek.set .monday (some ""), emptySplitWeek⟩,
    some ⟨.week1, none⟩, []⟩

/-- A state whose active week's Monday slot holds a non-empty workout id
absent from the (empty) library. -/
def stStaleState : PersistedState :=
  ⟨[], [tmplMonday], some [],
    some ⟨emptySplitWeek.set .monday (some "gone"), emptySplitWeek⟩,
    some ⟨.week1, none⟩, []⟩

/-- C7 counterexample: when the day slot holds the empty string — a
workout id absent from the library — `resolveWorkoutForDay` does not
return "no workout": the JS truthiness test sends it to the legacy
fallback, which returns the legacy Monday template. -/
theorem resolve_stale_cex :
    v2IdOf stEmptyIdState .monday = some "" ∧
      (stEmptyIdState.workoutLibrary.getD []).find? (fun x => x.id == "") =
        none ∧
      ¬(resolveWorkoutForDay stEmptyIdState .monday =
          (none, none, activeWeekOf stEmptyIdState)) := by
  decide

/-- C7 amended.  For a NON-EMPTY workout id held by the active week's day
slot and absent from the workout library, `resolveWorkoutForDay` returns
"no workout" (`none` workout, `none` id) without consulting the legacy
template list. -/
theorem resolve_stale_id (st : PersistedState) (day : DayName) (id : String)
    (hid : v2IdOf st day = some id) (hne : id ≠ "")
    (hfind : (st.workoutLibrary.getD []).find? (fun x => x.id == id) = none) :
    resolveWorkoutForDay st day = (none, none, activeWeekOf st) := by
  simp [resolveWorkoutForDay, hid, hne, hfind]

theorem resolve_stale_id_witness :
    v2IdOf stStaleState .monday = some "gone" ∧ "gone" ≠ "" ∧
      (stStaleState.workoutLibrary.getD []).find? (fun x => x.id == "gone") =
        none ∧
      resolveWorkoutForDay stStaleState .monday =
        (none, none, activeWeekOf stStaleState) :=
  ⟨rfl, by decide, rfl,
    resolve_stale_id stStaleState .monday "gone" rfl (by decide) rfl⟩

-- ------------------------- C5: plate-model round trip -------------------------

/-- Each plate denomination in half-unit multiples of 2.5. -/
def Plate.halfMult : Plate → ℕ
  | .p45 => 18
  | .p35 => 14
  | .p25 => 10
  | .p10 => 4
  | .p5 => 2
  | .p2half => 1

theorem Plate.weight_eq_halfMult (p : Plate) :
    p.weight = (p.halfMult : ℚ) * (5/2) := by
  cases p <;> norm_num [Plate.weight, Plate.halfMult]

/-- The `1e-9` guard does not move the floor of `k / m` for the small
divisors the plate loop uses. -/
theorem floor_div_eps (k m : ℕ) (h1 : 1 ≤ m) (h2 : m ≤ 18) :
    ⌊(k : ℚ) / (m : ℚ) + 1/1000000000⌋ = (k / m : ℕ) := by
  have hm0 : (0:ℚ) < (m:ℚ) := by exact_mod_cast h1
  have hdm : m * (k / m) + k % m = k := Nat.div_add_mod k m
  have hkq : (m:ℚ) * ((k / m : ℕ):ℚ) + ((k % m : ℕ):ℚ) = (k:ℚ) := by
    exact_mod_cast hdm
  have hdiv : (k:ℚ) / (m:ℚ) = ((k / m : ℕ):ℚ) + ((k % m : ℕ):ℚ) / (m:ℚ) := by
    field_simp
    linarith [hkq]
  have hmodlt : k % m < m := Nat.mod_lt k (by omega)
  have hmodq : ((k % m : ℕ):ℚ) ≤ (m:ℚ) - 1 := by
    have : (k % m : ℕ) + 1 ≤ m := hmodlt
    have hc : ((k % m : ℕ):ℚ) + 1 ≤ (m:ℚ) := by exact_mod_cast this
    linarith
  have heps : (1:ℚ)/1000000000 < 1/(m:ℚ) := by
    rw [div_lt_div_iff₀ (by norm_num) hm0]
    have : (m:ℚ) ≤ 18 := by exact_mod_cast h2
    linarith
  rw [Int.floor_eq_iff]
  constructor
  · rw [Int.cast_natCast, hdiv]
    have : (0:ℚ) ≤ ((k % m : ℕ):ℚ) / (m:ℚ) := by positivity
    linarith
  · rw [Int.cast_natCast, hdiv]
    have hfrac : ((k % m : ℕ):ℚ) / (m:ℚ) ≤ ((m:ℚ) - 1) / (m:ℚ) :=
      div_le_div_of_nonneg_right hmodq hm0.le
    have hm1 : ((m:ℚ) - 1) / (m:ℚ) = 1 - 1/(m:ℚ) := by
      field_simp
    linarith

theorem jsRound_intCast (n : ℤ) : jsRound (n : ℚ) = n := by
  unfold jsRound
  rw [Int.floor_int_add]
  norm_num

/-- `roundHalf` fixes every half-integer. -/
theorem roundHalf_half_int (n : ℤ) : roundHalf ((n:ℚ) / 2) = (n:ℚ) / 2 := by
  unfold roundHalf
  rw [div_mul_cancel₀ _ (by norm_num : (2:ℚ) ≠ 0), jsRound_intCast]

theorem roundHalf_nat_halfUnits (k : ℕ) :
    roundHalf ((k:ℚ) * (5/2)) = (k:ℚ) * (5/2) := by
  have h : (k:ℚ) * (5/2) = (((5 * k : ℕ) : ℤ) : ℚ) / 2 := by
    push_cast
    ring
  rw [h, roundHalf_half_int]

theorem PlateCounts.set_get_self (pc : PlateCounts) (p : Plate) :
    pc.set p (pc.get p) = pc := by
  cases p <;> rfl

/-- One greedy step at a half-unit multiple: the step divides out the
plate's half-multiple, records the quotient and carries the remainder. -/
theorem plateStep_nat (k : ℕ) (pc : PlateCounts) (p : Plate)
    (hz : pc.get p = 0) :
    plateStep ((k:ℚ) * (5/2), pc) p =
      (((k % p.halfMult : ℕ):ℚ) * (5/2), pc.set p (k / p.halfMult)) := by
  have hm1 : 1 ≤ p.halfMult := by cases p <;> simp [Plate.halfMult]
  have hm18 : p.halfMult ≤ 18 := by cases p <;> simp [Plate.halfMult]
  have hquot : (k:ℚ) * (5/2) / p.weight = (k:ℚ) / (p.halfMult:ℚ) := by
    rw [Plate.weight_eq_halfMult]
    rw [mul_div_mul_right _ _ (by norm_num : (5/2 : ℚ) ≠ 0)]
  have hcount : ⌊(k:ℚ) * (5/2) / p.weight + 1/1000000000⌋ = ((k / p.halfMult : ℕ) : ℤ) := by
    rw [hquot]
    exact floor_div_eps k p.halfMult hm1 hm18
  unfold plateStep
  simp only [hcount]
  by_cases hpos : ((k / p.halfMult : ℕ) : ℤ) > 0
  · rw [if_pos hpos]
    have hrem : (k:ℚ) * (5/2) - (((k / p.halfMult : ℕ) : ℤ) : ℚ) * p.weight =
        ((k % p.halfMult : ℕ):ℚ) * (5/2) := by
      rw [Plate.weight_eq_halfMult]
      have hdm : p.halfMult * (k / p.halfMult) + k % p.halfMult = k :=
        Nat.div_add_mod k p.halfMult
      have hq : (p.halfMult:ℚ) * ((k / p.halfMult : ℕ):ℚ) +
          ((k % p.halfMult : ℕ):ℚ) = (k:ℚ) := by exact_mod_cast hdm
      rw [Int.cast_natCast]
      linear_combination (-(5/2) : ℚ) * hq
    rw [hrem]
    have hround : roundHalf (((k % p.halfMult : ℕ):ℚ) * (5/2)) =
        ((k % p.halfMult : ℕ):ℚ) * (5/2) := roundHalf_nat_halfUnits _
    rw [hround]
    have htn : (((k / p.halfMult : ℕ) : ℤ)).toNat = k / p.halfMult :=
      Int.toNat_natCast _
    rw [htn]
  · rw [if_neg hpos]
    have h0 : k / p.halfMult = 0 := by
      by_contra hne
      exact hpos (by exact_mod_cast Nat.pos_of_ne_zero hne)
    have hlt : k < p.halfMult := by
      by_contra hge
      push_neg at hge
      have hdp : 0 < k / p.halfMult := Nat.div_pos hge (by omega)
      omega
    have hmod : k % p.halfMult = k := Nat.mod_eq_of_lt hlt
    have hset : pc.set p 0 = pc := by
      rw [← hz]
      exact PlateCounts.set_get_self pc p
    rw [h0, hmod, hset]

/-- The greedy decomposition at a half-unit multiple `k * 2.5`: the chain
of Euclidean quotients through 18, 14, 10, 4, 2, 1 half-multiples. -/
theorem platesForWeightPerSide_halfUnits (k : ℕ) :
    platesForWeightPerSide ((k:ℚ) * (5/2)) =
      ⟨k / 18, k % 18 / 14, k % 18 % 14 / 10, k % 18 % 14 % 10 / 4,
        k % 18 % 14 % 10 % 4 / 2, k % 18 % 14 % 10 % 4 % 2⟩ := by
  unfold platesForWeightPerSide
  rw [roundHalf_nat_halfUnits, PLATES]
  rw [List.foldl_cons, plateStep_nat k emptyPlateCounts .p45 rfl]
  simp only [Plate.halfMult]
  rw [List.foldl_cons,
    plateStep_nat (k % 18) (emptyPlateCounts.set .p45 (k / 18)) .p35 rfl]
  simp only [Plate.halfMult]
  rw [List.foldl_cons,
    plateStep_nat (k % 18 % 14)
      ((emptyPlateCounts.set .p45 (k / 18)).set .p35 (k % 18 / 14)) .p25 rfl]
  simp only [Plate.halfMult]
  rw [List.foldl_cons,
    plateStep_nat (k % 18 % 14 % 10)
      (((emptyPlateCounts.set .p45 (k / 18)).set .p35 (k % 18 / 14)).set .p25
        (k % 18 % 14 / 10)) .p10 rfl]
  simp only [Plate.halfMult]
  rw [List.foldl_cons,
    plateStep_nat (k % 18 % 14 % 10 % 4)
      ((((emptyPlateCounts.set .p45 (k / 18)).set .p35 (k % 18 / 14)).set .p25
        (k % 18 % 14 / 10)).set .p10 (k % 18 % 14 % 10 / 4)) .p5 rfl]
  simp only [Plate.halfMult]
  rw [List.foldl_cons,
    plateStep_nat (k % 18 % 14 % 10 % 4 % 2)
      (((((emptyPlateCounts.set .p45 (k / 18)).set .p35 (k % 18 / 14)).set .p25
        (k % 18 % 14 / 10)).set .p10 (k % 18 % 14 % 10 / 4)).set .p5
        (k % 18 % 14 % 10 % 4 / 2)) .p2half rfl]
  simp only [Plate.halfMult]
  rw [List.foldl_nil]
  simp [PlateCounts.set, emptyPlateCounts, Nat.div_one]

/-- The round trip at a half-unit multiple: summing both sides of the bar
doubles the target. -/
theorem plateRoundTrip_halfUnits (k : ℕ) :
    platesPerSideToTotal (platesForWeightPerSide ((k:ℚ) * (5/2))) 0 =
      2 * ((k:ℚ) * (5/2)) := by
  rw [platesForWeightPerSide_halfUnits]
  unfold platesPerSideToTotal plateSideSum PLATES
  simp only [List.foldl_cons, List.foldl_nil, Plate.weight, PlateCounts.get]
  have hnat : 18 * (k / 18) + 14 * (k % 18 / 14) + 10 * (k % 18 % 14 / 10) +
      4 * (k % 18 % 14 % 10 / 4) + 2 * (k % 18 % 14 % 10 % 4 / 2) +
      k % 18 % 14 % 10 % 4 % 2 = k := by omega
  have hq : (18:ℚ) * ((k / 18 : ℕ):ℚ) + 14 * ((k % 18 / 14 : ℕ):ℚ) +
      10 * ((k % 18 % 14 / 10 : ℕ):ℚ) + 4 * ((k % 18 % 14 % 10 / 4 : ℕ):ℚ) +
      2 * ((k % 18 % 14 % 10 % 4 / 2 : ℕ):ℚ) +
      ((k % 18 % 14 % 10 % 4 % 2 : ℕ):ℚ) = (k:ℚ) := by
    exact_mod_cast hnat
  linear_combination (5 : ℚ) * hq

/-- A weight is exactly representable by the plate denominations when it
is a (one-side) sum of plates from {45, 35, 25, 10, 5, 2.5}. -/
def Representable (w : ℚ) : Prop :=
  ∃ pc : PlateCounts, plateSideSum pc = w

theorem Representable.halfUnits {w : ℚ} (h : Representable w) :
    ∃ k : ℕ, w = (k:ℚ) * (5/2) := by
  obtain ⟨pc, rfl⟩ := h
  refine ⟨18 * pc.c45 + 14 * pc.c35 + 10 * pc.c25 + 4 * pc.c10 + 2 * pc.c5 +
    pc.c2half, ?_⟩
  unfold plateSideSum PLATES
  simp only [List.foldl_cons, List.foldl_nil, Plate.weight, PlateCounts.get]
  push_cast
  ring

/-- C5 counterexample: the claim's round-trip equation fails at the
representable weight 15 — `totalFromPerSide` counts both sides of the bar,
so the total is 30, not `round(15*2)/2 = 15`. -/
theorem plate_round_trip_cex :
    Representable 15 ∧ (0:ℚ) ≤ 15 ∧
      platesPerSideToTotal (platesForWeightPerSide 15) 0 ≠
        (jsRound (15 * 2) : ℚ) / 2 := by
  refine ⟨⟨⟨0, 0, 0, 1, 1, 0⟩, by
    norm_num [plateSideSum, PLATES, List.foldl, Plate.weight, PlateCounts.get]⟩,
    by norm_num, ?_⟩
  have h15 : (15:ℚ) = ((6:ℕ):ℚ) * (5/2) := by norm_num
  rw [h15, plateRoundTrip_halfUnits]
  norm_num [jsRound]

/-- C5 amended.  For every weight exactly representable by the
denomination set, `totalFromPerSide(decomposeTargetPerSide(w), 0)` equals
`2 * (round(w*2)/2)`: the greedy decomposition recovers `w` per side, and
the total doubles it (and `round(w*2)/2 = w` for such `w`). -/
theorem plate_round_trip (w : ℚ) (hrep : Representable w) :
    platesPerSideToTotal (platesForWeightPerSide w) 0 =
      2 * ((jsRound (w * 2) : ℚ) / 2) := by
  obtain ⟨k, rfl⟩ := hrep.halfUnits
  have hround : (jsRound ((k:ℚ) * (5/2) * 2) : ℚ) / 2 = (k:ℚ) * (5/2) := by
    have h : (k:ℚ) * (5/2) * 2 = (((5 * k : ℕ) : ℤ) : ℚ) := by
      push_cast
      ring
    rw [h, jsRound_intCast]
    push_cast
    ring
  rw [hround, plateRoundTrip_halfUnits]

theorem plate_round_trip_witness :
    Representable 15 ∧
      platesPerSideToTotal (platesForWeightPerSide 15) 0 =
        2 * ((jsRound (15 * 2) : ℚ) / 2) :=
  ⟨⟨⟨0, 0, 0, 1, 1, 0⟩, by
      norm_num [plateSideSum, PLATES, List.foldl, Plate.weight, PlateCounts.get]⟩,
    plate_round_trip 15 ⟨⟨0, 0, 0, 1, 1, 0⟩, by
      norm_num [plateSideSum, PLATES, List.foldl, Plate.weight, PlateCounts.get]⟩⟩

-- ------------------------- C8: legacy migration -------------------------

theorem SplitWeek.get_set (w : SplitWeek) (d d' : DayName) (v : Option String) :
    (w.set d v).get d' = if d' = d then v else w.get d' := by
  cases d <;> cases d' <;> simp [SplitWeek.get, SplitWeek.set]

theorem emptySplitWeek_get (d : DayName) : emptySplitWeek.get d = none := by
  cases d <;> rfl

/-- The filling loop assigns each weekday the first matching template (an
already-filled slot is never overwritten). -/
theorem foldl_fillWeekStep_get (ws : List WorkoutTemplate) :
    ∀ (wk : SplitWeek) (d : DayName),
      (ws.foldl fillWeekStep wk).get d =
        (wk.get d).or ((ws.find? (fun w => w.day == d)).map WorkoutTemplate.id) := by
  induction ws with
  | nil =>
      intro wk d
      simp
  | cons w ws ih =>
      intro wk d
      rw [List.foldl_cons, ih (fillWeekStep wk w) d]
      by_cases hw : wk.get w.day = none
      · simp only [fillWeekStep, if_pos hw]
        by_cases hd : d = w.day
        · subst hd
          rw [SplitWeek.get_set, if_pos rfl, hw]
          simp [List.find?]
        · rw [SplitWeek.get_set, if_neg hd]
          have hne : (w.day == d) = false := by
            simp [Ne.symm hd]
          simp [List.find?, hne]
      · simp only [fillWeekStep, if_neg hw]
        obtain ⟨v, hv⟩ := Option.ne_none_iff_exists'.1 hw
        by_cases hd : d = w.day
        · subst hd
          simp [hv, List.find?]
        · have hne : (w.day == d) = false := by
            simp [Ne.symm hd]
          simp [List.find?, hne]

theorem Heap.length_fillWeekStepH (a : ℕ) (h : Heap) (w : WorkoutTemplate) :
    (fillWeekStepH a h w).cells.length = h.cells.length := by
  simp [fillWeekStepH, Heap.write]

theorem Heap.length_foldl_fillWeekStepH (ws : List WorkoutTemplate) :
    ∀ (a : ℕ) (h : Heap),
      (ws.foldl (fillWeekStepH a) h).cells.length = h.cells.length := by
  induction ws with
  | nil => intro a h; rfl
  | cons w ws ih =>
      intro a h
      rw [List.foldl_cons, ih, Heap.length_fillWeekStepH]

/-- Running the filling loop through the heap computes the pure fold in
the mutated cell. -/
theorem Heap.read_foldl_fillWeekStepH (ws : List WorkoutTemplate) :
    ∀ (a : ℕ) (h : Heap) (wk : SplitWeek),
      a < h.cells.length → h.read a = some wk →
      (ws.foldl (fillWeekStepH a) h).read a =
        some (ws.foldl fillWeekStep wk) := by
  induction ws with
  | nil => intro a h wk _ hread; exact hread
  | cons w ws ih =>
      intro a h wk ha hread
      rw [List.foldl_cons, List.foldl_cons]
      refine ih a _ (fillWeekStep wk w) ?_ ?_
      · rw [Heap.length_fillWeekStepH]; exact ha
      · simp only [fillWeekStepH, Heap.read, Heap.write] at hread ⊢
        rw [hread]
        simp [List.getElem?_set, ha]

/-- C8.  Legacy migration: a state already holding all three v2 fields is
returned unchanged; otherwise the migration builds one library item per
legacy template (ids, names and exercise-id sequences copied), a week 1
assigning each weekday the first matching template in original order, a
week 2 equal in value to week 1, and active week defaulting to week 1;
allocation-wise (`buildWeeksH`), week 2 lives at a fresh address distinct
from week 1's holding an equal value, so writing through week 2's address
leaves week 1's cell unchanged. -/
theorem ensureV2State_spec (raw : PersistedState) :
    ((raw.workoutLibrary.isSome ∧ raw.split.isSome ∧ raw.settings.isSome) →
        ensureV2State raw = raw) ∧
    (¬(raw.workoutLibrary.isSome ∧ raw.split.isSome ∧ raw.settings.isSome) →
        (ensureV2State raw).workoutLibrary =
            some (raw.workouts.map (fun w => ⟨w.id, w.name, w.exerciseIds⟩)) ∧
          (∃ wk, (ensureV2State raw).split = some ⟨wk, wk⟩ ∧
            ∀ d, wk.get d =
              (raw.workouts.find? (fun w => w.day == d)).map WorkoutTemplate.id) ∧
          (ensureV2State raw).settings = some ⟨.week1, none⟩ ∧
          (ensureV2State raw).exercises = raw.exercises ∧
          (ensureV2State raw).workouts = raw.workouts ∧
          (ensureV2State raw).sessions = raw.sessions) ∧
    (∀ h : Heap,
        (buildWeeksH h raw.workouts).2.1 ≠ (buildWeeksH h raw.workouts).2.2 ∧
        (buildWeeksH h raw.workouts).1.read (buildWeeksH h raw.workouts).2.1 =
          (buildWeeksH h raw.workouts).1.read (buildWeeksH h raw.workouts).2.2 ∧
        ∀ w', ((buildWeeksH h raw.workouts).1.write
            (buildWeeksH h raw.workouts).2.2 w').read
              (buildWeeksH h raw.workouts).2.1 =
          (buildWeeksH h raw.workouts).1.read (buildWeeksH h raw.workouts).2.1) := by
  refine ⟨fun hv2 => by simp [ensureV2State, hv2], fun hv2 => ?_, fun h => ?_⟩
  · unfold ensureV2State
    rw [if_neg hv2]
    refine ⟨rfl, ?_, rfl, rfl, rfl, rfl⟩
    refine ⟨raw.workouts.foldl fillWeekStep emptySplitWeek, ?_, ?_⟩
    · show some (Split.mk _ (cloneSplitWeek _)) = _
      rfl
    · intro d
      rw [foldl_fillWeekStep_get, emptySplitWeek_get]
      rfl
  · have hlen1 : (h.alloc emptySplitWeek).1.cells.length = h.cells.length + 1 := by
      simp [Heap.alloc]
    have hread1 : (h.alloc emptySplitWeek).1.read h.cells.length =
        some emptySplitWeek := by
      simp [Heap.alloc, Heap.read]
    set h2 := raw.workouts.foldl (fillWeekStepH h.cells.length)
      (h.alloc emptySplitWeek).1 with hh2
    have hlen2 : h2.cells.length = h.cells.length + 1 := by
      rw [hh2, Heap.length_foldl_fillWeekStepH, hlen1]
    set F := raw.workouts.foldl fillWeekStep emptySplitWeek with hF
    have hread2 : h2.read h.cells.length = some F := by
      rw [hh2, hF]
      exact Heap.read_foldl_fillWeekStepH raw.workouts h.cells.length _
        emptySplitWeek (by rw [hlen1]; omega) hread1
    have hc : (h2.read h.cells.length).getD emptySplitWeek = F := by
      rw [hread2]
      rfl
    have hbw : buildWeeksH h raw.workouts =
        (⟨h2.cells ++
            [cloneSplitWeek ((h2.read h.cells.length).getD emptySplitWeek)]⟩,
          h.cells.length, h2.cells.length) := rfl
    have hreadA : ∀ c : SplitWeek,
        (Heap.mk (h2.cells ++ [c])).read h.cells.length = some F := by
      intro c
      show (h2.cells ++ [c])[h.cells.length]? = some F
      rw [List.getElem?_append_left (by omega)]
      exact hread2
    have hreadB : ∀ c : SplitWeek,
        (Heap.mk (h2.cells ++ [c])).read h2.cells.length = some c := by
      intro c
      exact List.getElem?_concat_length _ _
    have hwrite : ∀ (c w' : SplitWeek),
        ((Heap.mk (h2.cells ++ [c])).write h2.cells.length w').read
            h.cells.length =
          (Heap.mk (h2.cells ++ [c])).read h.cells.length := by
      intro c w'
      show ((h2.cells ++ [c]).set h2.cells.length w')[h.cells.length]? = _
      rw [List.getElem?_set_ne (by omega)]
      rfl
    refine ⟨?_, ?_, ?_⟩
    · simp only [hbw]
      omega
    · simp only [hbw]
      rw [hreadA, hreadB, hc]
      rfl
    · intro w'
      simp only [hbw]
      rw [hwrite, hreadA]

-- ------------------------- C9: import validation -------------------------

theorem str_append_ne_empty (s t : String) (h : s.data ≠ []) : (s ++ t) ≠ "" := by
  intro hc
  apply h
  have hd : (s ++ t).data = [] := by rw [hc]
  rw [String.data_append] at hd
  exact (List.append_eq_nil.1 hd).1

theorem data_ne_of_ne_empty (a : String) (h : a ≠ "") : a.data ≠ [] := by
  intro hc
  apply h
  cases a with
  | mk l => cases hc; rfl

theorem ne_empty_append_left (a b : String) (h : a ≠ "") : a ++ b ≠ "" :=
  str_append_ne_empty a b (data_ne_of_ne_empty a h)

namespace SE

/-- The weekday a day entry names, when it names one. -/
def dayNameOf (d : JValue) : Option DayName :=
  match d with
  | .jobj f => parseDay (jGet f "name")
  | _ => none

/-- The id string a week entry carries, when it carries one. -/
def weekIdOf (w : JValue) : Option String :=
  match w with
  | .jobj f =>
      match jGet f "id" with
      | some (.jstr s) => some s
      | _ => none
  | _ => none

/-- A day entry the validator accepts: an object with exactly the keys
`name` and `workoutId`, a valid weekday name, and a `workoutId` that is
null or a string naming a library workout. -/
def DayWF (workoutIds : List String) (d : JValue) : Prop :=
  ∃ f, d = .jobj f ∧
    (f.map Prod.fst).length = 2 ∧ "name" ∈ f.map Prod.fst ∧
    "workoutId" ∈ f.map Prod.fst ∧
    (∃ dn, parseDay (jGet f "name") = some dn) ∧
    (jGet f "workoutId" = some .jnull ∨
      ∃ s, jGet f "workoutId" = some (.jstr s) ∧ s ∈ workoutIds)

/-- A week entry the validator accepts: an object with exactly the keys
`id`, `name` and `days`, non-blank string id and name, and exactly 7
well-formed day entries with pairwise-distinct weekday names. -/
def WeekWF (workoutIds : List String) (w : JValue) : Prop :=
  ∃ f, w = .jobj f ∧
    (f.map Prod.fst).length = 3 ∧ "id" ∈ f.map Prod.fst ∧
    "name" ∈ f.map Prod.fst ∧ "days" ∈ f.map Prod.fst ∧
    (∃ s, jGet f "id" = some (.jstr s) ∧ s.trim ≠ "") ∧
    (∃ s, jGet f "name" = some (.jstr s) ∧ s.trim ≠ "") ∧
    (∃ ds, jGet f "days" = some (.jarr ds) ∧ ds.length = 7 ∧
      (∀ d ∈ ds, DayWF workoutIds d) ∧ (ds.map dayNameOf).Nodup)

theorem validateDays_error_ne (wids : List String) (i : ℕ) :
    ∀ (days : List JValue) (seen : List DayName) (e : String),
      validateDays wids i days seen = .error e → e ≠ "" := by
  have hW : ("Week " : String) ≠ "" := by decide
  intro days
  induction days with
  | nil => intro seen e h; exact absurd h (by simp [validateDays])
  | cons day rest ih =>
      intro seen e h
      cases day with
      | jobj f =>
          simp only [validateDays] at h
          split at h
          · cases h
            exact ne_empty_append_left _ _ (ne_empty_append_left _ _ hW)
          · cases hpd : parseDay (jGet f "name") with
            | none =>
                simp only [hpd] at h
                cases h
                exact ne_empty_append_left _ _ (ne_empty_append_left _ _ hW)
            | some dn =>
                simp only [hpd] at h
                by_cases hseen : dn ∈ seen
                · rw [if_pos hseen] at h
                  cases h
                  exact ne_empty_append_left _ _ (ne_empty_append_left _ _
                    (ne_empty_append_left _ _ (ne_empty_append_left _ _ hW)))
                · rw [if_neg hseen] at h
                  cases hwid : jGet f "workoutId" with
                  | none =>
                      simp only [hwid] at h
                      cases h
                      exact ne_empty_append_left _ _ (ne_empty_append_left _ _
                        (ne_empty_append_left _ _ (ne_empty_append_left _ _ hW)))
                  | some v =>
                      cases v with
                      | jnull =>
                          simp only [hwid] at h
                          cases hrec : validateDays wids i rest (dn :: seen) with
                          | error eo =>
                              simp only [hrec, Except.map] at h
                              cases h
                              exact ih (dn :: seen) _ hrec
                          | ok ds =>
                              simp only [hrec, Except.map] at h
                              exact Except.noConfusion h
                      | jstr wid =>
                          simp only [hwid] at h
                          by_cases hin : wid ∈ wids
                          · rw [if_pos hin] at h
                            cases hrec : validateDays wids i rest (dn :: seen) with
                            | error eo =>
                                simp only [hrec, Except.map] at h
                                cases h
                                exact ih (dn :: seen) _ hrec
                            | ok ds =>
                                simp only [hrec, Except.map] at h
                                exact Except.noConfusion h
                          · rw [if_neg hin] at h
                            cases h
                            exact ne_empty_append_left _ _ (ne_empty_append_left _ _
                              (ne_empty_append_left _ _ (ne_empty_append_left _ _
                                (ne_empty_append_left _ _ (ne_empty_append_left _ _
                                  hW)))))
                      | jbool b =>
                          simp only [hwid] at h
                          cases h
                          exact ne_empty_append_left _ _ (ne_empty_append_left _ _
                            (ne_empty_append_left _ _ (ne_empty_append_left _ _ hW)))
                      | jnum q =>
                          simp only [hwid] at h
                          cases h
                          exact ne_empty_append_left _ _ (ne_empty_append_left _ _
                            (ne_empty_append_left _ _ (ne_empty_append_left _ _ hW)))
                      | jarr xs =>
                          simp only [hwid] at h
                          cases h
                          exact ne_empty_append_left _ _ (ne_empty_append_left _ _
                            (ne_empty_append_left _ _ (ne_empty_append_left _ _ hW)))
                      | jobj g =>
                          simp only [hwid] at h
                          cases h
                          exact ne_empty_append_left _ _ (ne_empty_append_left _ _
                            (ne_empty_append_left _ _ (ne_empty_append_left _ _ hW)))
      | jnull =>
          simp only [validateDays] at h
          cases h
          exact ne_empty_append_left _ _ (ne_empty_append_left _ _ hW)
      | jbool b =>
          simp only [validateDays] at h
          cases h
          exact ne_empty_append_left _ _ (ne_empty_append_left _ _ hW)
      | jnum q =>
          simp only [validateDays] at h
          cases h
          exact ne_empty_append_left _ _ (ne_empty_append_left _ _ hW)
      | jstr st =>
          simp only [validateDays] at h
          cases h
          exact ne_empty_append_left _ _ (ne_empty_append_left _ _ hW)
      | jarr xs =>
          simp only [validateDays] at h
          cases h
          exact ne_empty_append_left _ _ (ne_empty_append_left _ _ hW)

theorem validateDays_ok (wids : List String) (i : ℕ) :
    ∀ (days : List JValue) (seen : List DayName) (out : List SplitDay),
      validateDays wids i days seen = .ok out →
      (∀ d ∈ days, DayWF wids d) ∧ (days.map dayNameOf).Nodup ∧
      (∀ dn, some dn ∈ days.map dayNameOf → dn ∉ seen) := by
  intro days
  induction days with
  | nil => intro seen out h; exact ⟨by simp, by simp, by simp⟩
  | cons day rest ih =>
      intro seen out h
      cases day with
      | jobj f =>
          simp only [validateDays] at h
          split at h
          · exact Except.noConfusion h
          · rename_i hkeys
            rw [not_not] at hkeys
            cases hpd : parseDay (jGet f "name") with
            | none => simp only [hpd] at h; exact Except.noConfusion h
            | some dn =>
                simp only [hpd] at h
                by_cases hseen : dn ∈ seen
                · rw [if_pos hseen] at h; exact Except.noConfusion h
                · rw [if_neg hseen] at h
                  have hdn : dayNameOf (.jobj f) = some dn := by
                    simp [dayNameOf, hpd]
                  cases hwid : jGet f "workoutId" with
                  | none => simp only [hwid] at h; exact Except.noConfusion h
                  | some v =>
                      cases v with
                      | jnull =>
                          simp only [hwid] at h
                          cases hrec : validateDays wids i rest (dn :: seen) with
                          | error eo =>
                              simp only [hrec, Except.map] at h
                              exact Except.noConfusion h
                          | ok ds =>
                              obtain ⟨hwf, hnd, hfr⟩ := ih (dn :: seen) ds hrec
                              refine ⟨?_, ?_, ?_⟩
                              · intro d hd
                                rcases List.mem_cons.1 hd with rfl | hd
                                · exact ⟨f, rfl, hkeys.1, hkeys.2.1, hkeys.2.2,
                                    ⟨dn, hpd⟩, Or.inl hwid⟩
                                · exact hwf d hd
                              · simp only [List.map_cons, hdn]
                                refine List.nodup_cons.2 ⟨?_, hnd⟩
                                intro hmem
                                exact hfr dn hmem (List.mem_cons_self _ _)
                              · intro dn' hmem
                                simp only [List.map_cons, hdn] at hmem
                                rcases List.mem_cons.1 hmem with heq | hmem
                                · cases heq
                                  exact hseen
                                · intro hsn
                                  exact hfr dn' hmem (List.mem_cons_of_mem _ hsn)
                      | jstr wid =>
                          simp only [hwid] at h
                          by_cases hin : wid ∈ wids
                          · rw [if_pos hin] at h
                            cases hrec : validateDays wids i rest (dn :: seen) with
                            | error eo =>
                                simp only [hrec, Except.map] at h
                                exact Except.noConfusion h
                            | ok ds =>
                                obtain ⟨hwf, hnd, hfr⟩ := ih (dn :: seen) ds hrec
                                refine ⟨?_, ?_, ?_⟩
                                · intro d hd
                                  rcases List.mem_cons.1 hd with rfl | hd
                                  · exact ⟨f, rfl, hkeys.1, hkeys.2.1, hkeys.2.2,
                                      ⟨dn, hpd⟩, Or.inr ⟨wid, hwid, hin⟩⟩
                                  · exact hwf d hd
                                · simp only [List.map_cons, hdn]
                                  refine List.nodup_cons.2 ⟨?_, hnd⟩
                                  intro hmem
                                  exact hfr dn hmem (List.mem_cons_self _ _)
                                · intro dn' hmem
                                  simp only [List.map_cons, hdn] at hmem
                                  rcases List.mem_cons.1 hmem with heq | hmem
                                  · cases heq
                                    exact hseen
                                  · intro hsn
                                    exact hfr dn' hmem (List.mem_cons_of_mem _ hsn)
                          · rw [if_neg hin] at h
                            exact Except.noConfusion h
                      | jbool b =>
                          simp only [hwid] at h; exact Except.noConfusion h
                      | jnum q =>
                          simp only [hwid] at h; exact Except.noConfusion h
                      | jarr xs =>
                          simp only [hwid] at h; exact Except.noConfusion h
                      | jobj g =>
                          simp only [hwid] at h; exact Except.noConfusion h
      | jnull =>
          simp only [validateDays] at h; exact Except.noConfusion h
      | jbool b =>
          simp only [validateDays] at h; exact Except.noConfusion h
      | jnum q =>
          simp only [validateDays] at h; exact Except.noConfusion h
      | jstr st =>
          simp only [validateDays] at h; exact Except.noConfusion h
      | jarr xs =>
          simp only [validateDays] at h; exact Except.noConfusion h

theorem validateWeeks_error_ne (wids : List String) :
    ∀ (weeks : List JValue) (i : ℕ) (seenIds : List String) (e : String),
      validateWeeks wids weeks i seenIds = .error e → e ≠ "" := by
  have hW : ("Week " : String) ≠ "" := by decide
  have hD : ("Duplicate week id '" : String) ≠ "" := by decide
  intro weeks
  induction weeks with
  | nil => intro i seenIds e h; exact absurd h (by simp [validateWeeks])
  | cons week rest ih =>
      intro i seenIds e h
      cases week with
      | jobj f =>
          simp only [validateWeeks] at h
          split at h
          · cases h
            exact ne_empty_append_left _ _ (ne_empty_append_left _ _ hW)
          · cases hid : jGet f "id" with
            | none =>
                simp only [hid] at h
                cases h
                exact ne_empty_append_left _ _ (ne_empty_append_left _ _ hW)
            | some v =>
                cases v with
                | jstr idStr =>
                    simp only [hid] at h
                    by_cases htr : idStr.trim = ""
                    · rw [if_pos htr] at h
                      cases h
                      exact ne_empty_append_left _ _ (ne_empty_append_left _ _ hW)
                    · rw [if_neg htr] at h
                      by_cases hsn : idStr ∈ seenIds
                      · rw [if_pos hsn] at h
                        cases h
                        exact ne_empty_append_left _ _ (ne_empty_append_left _ _ hD)
                      · rw [if_neg hsn] at h
                        cases hname : jGet f "name" with
                        | none =>
                            simp only [hname] at h
                            cases h
                            exact ne_empty_append_left _ _
                              (ne_empty_append_left _ _ hW)
                        | some w =>
                            cases w with
                            | jstr nameStr =>
                                simp only [hname] at h
                                by_cases hntr : nameStr.trim = ""
                                · rw [if_pos hntr] at h
                                  cases h
                                  exact ne_empty_append_left _ _
                                    (ne_empty_append_left _ _ hW)
                                · rw [if_neg hntr] at h
                                  cases hdays : jGet f "days" with
                                  | none =>
                                      simp only [hdays] at h
                                      cases h
                                      exact ne_empty_append_left _ _
                                        (ne_empty_append_left _ _ hW)
                                  | some dv =>
                                      cases dv with
                                      | jarr days =>
                                          simp only [hdays] at h
                                          by_cases hlen : days.length ≠ 7
                                          · rw [if_pos hlen] at h
                                            cases h
                                            exact ne_empty_append_left _ _
                                              (ne_empty_append_left _ _ hW)
                                          · rw [if_neg hlen] at h
                                            cases hvd : validateDays wids i days []
                                              with
                                            | error ed =>
                                                simp only [hvd] at h
                                                cases h
                                                exact validateDays_error_ne wids i
                                                  days [] _ hvd
                                            | ok nds =>
                                                simp only [hvd] at h
                                                cases hrec : validateWeeks wids rest
                                                    (i+1) (idStr :: seenIds) with
                                                | error eo =>
                                                    simp only [hrec, Except.map] at h
                                                    cases h
                                                    exact ih (i+1)
                                                      (idStr :: seenIds) _ hrec
                                                | ok ws =>
                                                    simp only [hrec, Except.map] at h
                                                    exact Except.noConfusion h
                                      | jnull =>
                                          simp only [hdays] at h
                                          cases h
                                          exact ne_empty_append_left _ _
                                            (ne_empty_append_left _ _ hW)
                                      | jbool b =>
                                          simp only [hdays] at h
                                          cases h
                                          exact ne_empty_append_left _ _
                                            (ne_empty_append_left _ _ hW)
                                      | jnum q =>
                                          simp only [hdays] at h
                                          cases h
                                          exact ne_empty_append_left _ _
                                            (ne_empty_append_left _ _ hW)
                                      | jstr st =>
                                          simp only [hdays] at h
                                          cases h
                                          exact ne_empty_append_left _ _
                                            (ne_empty_append_left _ _ hW)
                                      | jobj g =>
                                          simp only [hdays] at h
                                          cases h
                                          exact ne_empty_append_left _ _
                                            (ne_empty_append_left _ _ hW)
                            | jnull =>
                                simp only [hname] at h
                                cases h
                                exact ne_empty_append_left _ _
                                  (ne_empty_append_left _ _ hW)
                            | jbool b =>
                                simp only [hname] at h
                                cases h
                                exact ne_empty_append_left _ _
                                  (ne_empty_append_left _ _ hW)
                            | jnum q =>
                                simp only [hname] at h
                                cases h
                                exact ne_empty_append_left _ _
                                  (ne_empty_append_left _ _ hW)
                            | jarr xs =>
                                simp only [hname] at h
                                cases h
                                exact ne_empty_append_left _ _
                                  (ne_empty_append_left _ _ hW)
                            | jobj g =>
                                simp only [hname] at h
                                cases h
                                exact ne_empty_append_left _ _
                                  (ne_empty_append_left _ _ hW)
                | jnull =>
                    simp only [hid] at h
                    cases h
                    exact ne_empty_append_left _ _ (ne_empty_append_left _ _ hW)
                | jbool b =>
                    simp only [hid] at h
                    cases h
                    exact ne_empty_append_left _ _ (ne_empty_append_left _ _ hW)
                | jnum q =>
                    simp only [hid] at h
                    cases h
                    exact ne_empty_append_left _ _ (ne_empty_append_left _ _ hW)
                | jarr xs =>
                    simp only [hid] at h
                    cases h
                    exact ne_empty_append_left _ _ (ne_empty_append_left _ _ hW)
                | jobj g =>
                    simp only [hid] at h
                    cases h
                    exact ne_empty_append_left _ _ (ne_empty_append_left _ _ hW)
      | jnull =>
          simp only [validateWeeks] at h
          cases h
          exact ne_empty_append_left _ _ (ne_empty_append_left _ _ hW)
      | jbool b =>
          simp only [validateWeeks] at h
          cases h
          exact ne_empty_append_left _ _ (ne_empty_append_left _ _ hW)
      | jnum q =>
          simp only [validateWeeks] at h
          cases h
          exact ne_empty_append_left _ _ (ne_empty_append_left _ _ hW)
      | jstr st =>
          simp only [validateWeeks] at h
          cases h
          exact ne_empty_append_left _ _ (ne_empty_append_left _ _ hW)
      | jarr xs =>
          simp only [validateWeeks] at h
          cases h
          exact ne_empty_append_left _ _ (ne_empty_append_left _ _ hW)

theorem validateWeeks_ok (wids : List String) :
    ∀ (weeks : List JValue) (i : ℕ) (seenIds : List String) (out : List Week),
      validateWeeks wids weeks i seenIds = .ok out →
      (∀ w ∈ weeks, WeekWF wids w) ∧ (weeks.map weekIdOf).Nodup ∧
      (∀ s, some s ∈ weeks.map weekIdOf → s ∉ seenIds) := by
  intro weeks
  induction weeks with
  | nil => intro i seenIds out h; exact ⟨by simp, by simp, by simp⟩
  | cons week rest ih =>
      intro i seenIds out h
      cases week with
      | jobj f =>
          simp only [validateWeeks] at h
          split at h
          · exact Except.noConfusion h
          · rename_i hkeys
            rw [not_not] at hkeys
            cases hid : jGet f "id" with
            | none => simp only [hid] at h; exact Except.noConfusion h
            | some v =>
                cases v with
                | jstr idStr =>
                    simp only [hid] at h
                    by_cases htr : idStr.trim = ""
                    · rw [if_pos htr] at h; exact Except.noConfusion h
                    · rw [if_neg htr] at h
                      by_cases hsn : idStr ∈ seenIds
                      · rw [if_pos hsn] at h; exact Except.noConfusion h
                      · rw [if_neg hsn] at h
                        cases hname : jGet f "name" with
                        | none =>
                            simp only [hname] at h; exact Except.noConfusion h
                        | some w =>
                            cases w with
                            | jstr nameStr =>
                                simp only [hname] at h
                                by_cases hntr : nameStr.trim = ""
                                · rw [if_pos hntr] at h
                                  exact Except.noConfusion h
                                · rw [if_neg hntr] at h
                                  cases hdays : jGet f "days" with
                                  | none =>
                                      simp only [hdays] at h
                                      exact Except.noConfusion h
                                  | some dv =>
                                      cases dv with
                                      | jarr days =>
                                          simp only [hdays] at h
                                          by_cases hlen : days.length ≠ 7
                                          · rw [if_pos hlen] at h
                                            exact Except.noConfusion h
                                          · rw [if_neg hlen] at h
                                            rw [not_ne_iff] at hlen
                                            cases hvd : validateDays wids i days []
                                              with
                                            | error ed =>
                                                simp only [hvd] at h
                                                exact Except.noConfusion h
                                            | ok nds =>
                                                simp only [hvd] at h
                                                cases hrec : validateWeeks wids rest
                                                    (i+1) (idStr :: seenIds) with
                                                | error eo =>
                                                    simp only [hrec, Except.map] at h
                                                    exact Except.noConfusion h
                                                | ok ws =>
                                                    obtain ⟨hdwf, hdnd, -⟩ :=
                                                      validateDays_ok wids i days []
                                                        nds hvd
                                                    obtain ⟨hwf, hnd, hfr⟩ :=
                                                      ih (i+1) (idStr :: seenIds)
                                                        ws hrec
                                                    have hwkid :
                                                        weekIdOf (.jobj f) =
                                                          some idStr := by
                                                      simp [weekIdOf, hid]
                                                    refine ⟨?_, ?_, ?_⟩
                                                    · intro w hw
                                                      rcases List.mem_cons.1 hw with
                                                        rfl | hw
                                                      · exact ⟨f, rfl, hkeys.1,
                                                          hkeys.2.1, hkeys.2.2.1,
                                                          hkeys.2.2.2,
                                                          ⟨idStr, hid, htr⟩,
                                                          ⟨nameStr, hname, hntr⟩,
                                                          ⟨days, hdays, hlen,
                                                            hdwf, hdnd⟩⟩
                                                      · exact hwf w hw
                                                    · simp only [List.map_cons,
                                                        hwkid]
                                                      refine List.nodup_cons.2
                                                        ⟨?_, hnd⟩
                                                      intro hmem
                                                      exact hfr idStr hmem
                                                        (List.mem_cons_self _ _)
                                                    · intro s hmem
                                                      simp only [List.map_cons,
                                                        hwkid] at hmem
                                                      rcases List.mem_cons.1 hmem
                                                        with heq | hmem
                                                      · cases heq
                                                        exact hsn
                                                      · intro hsl
                                                        exact hfr s hmem
                                                          (List.mem_cons_of_mem _
                                                            hsl)
                                      | jnull =>
                                          simp only [hdays] at h
                                          exact Except.noConfusion h
                                      | jbool b =>
                                          simp only [hdays] at h
                                          exact Except.noConfusion h
                                      | jnum q =>
                                          simp only [hdays] at h
                                          exact Except.noConfusion h
                                      | jstr st =>
                                          simp only [hdays] at h
                                          exact Except.noConfusion h
                                      | jobj g =>
                                          simp only [hdays] at h
                                          exact Except.noConfusion h
                            | jnull =>
                                simp only [hname] at h; exact Except.noConfusion h
                            | jbool b =>
                                simp only [hname] at h; exact Except.noConfusion h
                            | jnum q =>
                                simp only [hname] at h; exact Except.noConfusion h
                            | jarr xs =>
                                simp only [hname] at h; exact Except.noConfusion h
                            | jobj g =>
                                simp only [hname] at h; exact Except.noConfusion h
                | jnull => simp only [hid] at h; exact Except.noConfusion h
                | jbool b => simp only [hid] at h; exact Except.noConfusion h
                | jnum q => simp only [hid] at h; exact Except.noConfusion h
                | jarr xs => simp only [hid] at h; exact Except.noConfusion h
                | jobj g => simp only [hid] at h; exact Except.noConfusion h
      | jnull => simp only [validateWeeks] at h; exact Except.noConfusion h
      | jbool b => simp only [validateWeeks] at h; exact Except.noConfusion h
      | jnum q => simp only [validateWeeks] at h; exact Except.noConfusion h
      | jstr st => simp only [validateWeeks] at h; exact Except.noConfusion h
      | jarr xs => simp only [validateWeeks] at h; exact Except.noConfusion h

end SE

/-- C9.  Split-import validation is all-or-nothing: every rejection
carries a non-empty reason (the first-encountered problem), and a
document is accepted — producing the weeks `handleImport` installs
wholesale — only when it is an object whose sole top-level key is
`weeks`, holding a non-empty array of well-formed weeks (exactly the keys
id/name/days, non-blank id and name, exactly 7 day entries with distinct
valid weekday names, every `workoutId` in the library) with
pairwise-distinct week ids.  The validator is pure: on a rejection no
weeks value is produced, so no existing state changes. -/
theorem import_validation (library : List WorkoutLibraryItem)
    (parsed : JValue) :
    (∀ e, SE.validateImport library parsed = .error e → e ≠ "") ∧
    (∀ out, SE.validateImport library parsed = .ok out →
      ∃ warr, parsed = .jobj [("weeks", .jarr warr)] ∧ warr ≠ [] ∧
        (∀ w ∈ warr, SE.WeekWF (library.map (fun w => w.id)) w) ∧
        (warr.map SE.weekIdOf).Nodup) := by
  constructor
  · intro e h
    cases parsed with
    | jobj f =>
        simp only [SE.validateImport] at h
        by_cases hk : f.map Prod.fst = ["weeks"]
        · rw [if_pos hk] at h
          cases hw : jGet f "weeks" with
          | none => simp only [hw] at h; cases h; decide
          | some v =>
              cases v with
              | jarr ws =>
                  simp only [hw] at h
                  by_cases he : ws.isEmpty
                  · rw [if_pos he] at h; cases h; decide
                  · rw [if_neg he] at h
                    exact SE.validateWeeks_error_ne _ ws 0 [] e h
              | jnull => simp only [hw] at h; cases h; decide
              | jbool b => simp only [hw] at h; cases h; decide
              | jnum q => simp only [hw] at h; cases h; decide
              | jstr st => simp only [hw] at h; cases h; decide
              | jobj g => simp only [hw] at h; cases h; decide
        · rw [if_neg hk] at h; cases h; decide
    | jnull => simp only [SE.validateImport] at h; cases h; decide
    | jbool b => simp only [SE.validateImport] at h; cases h; decide
    | jnum q => simp only [SE.validateImport] at h; cases h; decide
    | jstr st => simp only [SE.validateImport] at h; cases h; decide
    | jarr xs => simp only [SE.validateImport] at h; cases h; decide
  · intro out h
    cases parsed with
    | jobj f =>
        simp only [SE.validateImport] at h
        by_cases hk : f.map Prod.fst = ["weeks"]
        · obtain ⟨v, rfl⟩ : ∃ v, f = [("weeks", v)] := by
            cases f with
            | nil => simp at hk
            | cons p rest =>
                obtain ⟨a, b⟩ := p
                simp only [List.map_cons] at hk
                have ha : a = "weeks" ∧ rest.map Prod.fst = [] := by
                  constructor
                  · exact (List.cons_eq_cons.1 hk).1
                  · exact (List.cons_eq_cons.1 hk).2
                obtain ⟨rfl, hrest⟩ := ha
                rw [List.map_eq_nil_iff] at hrest
                subst hrest
                exact ⟨b, rfl⟩
          rw [if_pos hk] at h
          have hw : jGet [("weeks", v)] "weeks" = some v := rfl
          cases v with
          | jarr ws =>
              simp only [hw] at h
              by_cases he : ws.isEmpty
              · rw [if_pos he] at h; exact Except.noConfusion h
              · rw [if_neg he] at h
                obtain ⟨hwf, hnd, -⟩ := SE.validateWeeks_ok _ ws 0 [] out h
                exact ⟨ws, rfl, by simpa [List.isEmpty_iff] using he, hwf, hnd⟩
          | jnull => simp only [hw] at h; exact Except.noConfusion h
          | jbool b => simp only [hw] at h; exact Except.noConfusion h
          | jnum q => simp only [hw] at h; exact Except.noConfusion h
          | jstr st => simp only [hw] at h; exact Except.noConfusion h
          | jobj g => simp only [hw] at h; exact Except.noConfusion h
        · rw [if_neg hk] at h; exact Except.noConfusion h
    | jnull => simp only [SE.validateImport] at h; exact Except.noConfusion h
    | jbool b => simp only [SE.validateImport] at h; exact Except.noConfusion h
    | jnum q => simp only [SE.validateImport] at h; exact Except.noConfusion h
    | jstr st => simp only [SE.validateImport] at h; exact Except.noConfusion h
    | jarr xs => simp only [SE.validateImport] at h; exact Except.noConfusion h

end LiftGraph
